import Mathlib

/-!
Verification development for the `ResearchAgent` core
(`research_agent.py`): the JSON extractor `_extract_json`, the
per-round planning loop of `ResearchAgent.research`, and the tool
registry `tool_map` built by `_init_tools`.

External collaborators (the LLM transport, `json.loads`, the network
backends of the tools) are opaque request/response capabilities; they
are abstracted as an environment of functions, while everything the
code of the repository itself does — state initialisation, the extraction
regexes, the per-round update/stop/tool logic, finalisation — is
embedded directly.
-/

namespace ResearchAgent

/-! ## Characters used by the extraction regexes

Written via `Char.ofNat` codepoints: 96 is the code-fence character,
123 and 125 are the opening and closing curly braces. -/

def tick : Char := Char.ofNat 96

def obr : Char := Char.ofNat 123

def cbr : Char := Char.ofNat 125

/-- The Python `\s` class, restricted to its ASCII members (the model
texts we reason about use only these). -/
def isWs (c : Char) : Bool :=
  c == ' ' || c == '\t' || c == '\n' || c == '\r' ||
    c == Char.ofNat 11 || c == Char.ofNat 12

/-- Greedy `\s*`: maximal whitespace skip. When the regex continues
with a non-whitespace literal this is exactly the behaviour of Python,
because backtracking into `\s*` can never help. -/
def dropWs (l : List Char) : List Char := l.dropWhile isWs

/-- Does the text begin with the three-character code fence? -/
def startsWithTicks (l : List Char) : Bool :=
  match l with
  | a :: b :: c :: _ => a == tick && b == tick && c == tick
  | _ => false

/-- The lazy part `.*?\}` of the first regex of `_extract_json`,
followed by `\s*` and the closing fence: scanning the characters after
the opening brace, stop at the FIRST closing brace that is followed
(after whitespace) by a code fence.  Returns the captured inner
characters (between the braces) and the residue after the closing
brace. -/
def findLazyClose (l : List Char) : Option (List Char × List Char) :=
  match l with
  | [] => none
  | c :: rest =>
    if c = cbr ∧ startsWithTicks (dropWs rest) = true then some ([], rest)
    else
      match findLazyClose rest with
      | some pr => some (c :: pr.1, pr.2)
      | none => none

/-- After the fence (and the optional label): `\s*(\{.*?\})\s*` then
the closing fence.  Returns the captured group `\{.*?\}`. -/
def tryAfterLabel (l : List Char) : Option (List Char) :=
  match dropWs l with
  | [] => none
  | c :: body =>
    if c = obr then
      match findLazyClose body with
      | some pr => some (obr :: pr.1 ++ [cbr])
      | none => none
    else none

/-- The four characters of the optional label. -/
def jsonL : List Char := ['j', 's', 'o', 'n']

/-- The `(?:json)?` literal: strip a leading `json` if present. -/
def stripJson (l : List Char) : Option (List Char) :=
  if l.take 4 = jsonL then some (l.drop 4) else none

/-- Attempt the fenced-block regex at exactly this position: the
three-character fence, then the optional `json` label (tried first, as
the greedy `(?:json)?` does, falling back to the unlabeled reading),
then `\s*(\{.*?\})\s*` and the closing fence. -/
def tryFenceAt (l : List Char) : Option (List Char) :=
  match l with
  | a :: b :: c :: rest =>
    if a = tick ∧ b = tick ∧ c = tick then
      match stripJson rest with
      | some r2 =>
        match tryAfterLabel r2 with
        | some cap => some cap
        | none => tryAfterLabel rest
      | none => tryAfterLabel rest
    else none
  | _ => none

/-- Python re.search of the fenced-block regex: leftmost match wins. -/
def searchFence (l : List Char) : Option (List Char) :=
  match l with
  | [] => none
  | _ :: t =>
    match tryFenceAt l with
    | some cap => some cap
    | none => searchFence t

/-- The second regex of the extractor, a greedy DOTALL brace span:
the match (when it exists) runs from the first opening brace to the
last closing brace of the whole text. -/
def braceSpan (l : List Char) : Option (List Char) :=
  let l1 := l.dropWhile (fun c => !(c == obr))
  let l2 := (l1.reverse.dropWhile (fun c => !(c == cbr))).reverse
  if l2.isEmpty then none else some l2

/-- The body of `_extract_json` on character lists: fenced block first, then the
greedy brace span, then the text unchanged. -/
def extractJsonChars (l : List Char) : List Char :=
  match searchFence l with
  | some cap => cap
  | none =>
    match braceSpan l with
    | some sp => sp
    | none => l

/-- The method `ResearchAgent._extract_json` (lines 86-96 of
`research_agent.py`). -/
def extract_json (text : String) : String :=
  String.mk (extractJsonChars text.data)

/-! ## Data model of the planning loop -/

/-- The dictionary obtained from `json.loads` on the extracted text,
projected onto the keys the loop reads with `.get`: a missing key is
`none`.  A `topic` key may also be present in the output of the model; the
loop never reads it, which is recorded here by carrying the field. -/
structure Plan where
  topic? : Option String
  summary? : Option String
  sources? : Option (List String)
  tools_used? : Option (List String)
deriving Repr, DecidableEq

/-- The mutable `state` dictionary of `ResearchAgent.research`
(lines 115-121). `tool_results` is an insertion-ordered association
list, as a Python dict is. -/
structure SessionState where
  tools_used : List String
  tool_results : List (String × String)
  topic : String
  summary : String
  sources : List String
deriving Repr, DecidableEq

/-- The pydantic `ResearchResponse` record. -/
structure ResearchResponse where
  topic : String
  summary : String
  sources : List String
  tools_used : List String
deriving Repr, DecidableEq

/-- A registered tool capability: invoked with the (fixed) query, its
outcome may vary with the round in which it is invoked.  `Except.ok`
is a returned text; `Except.error` is a raised exception, which the
per-round handler of the loop swallows. -/
abbrev ToolCap := Nat → Except String String

/-- One invocation record: (round number, tool name). -/
abbrev Log := List (Nat × String)

/-- The opaque collaborators of one `research` call:
`model i` is the transport outcome of `self.llm.invoke` in round `i`
(`none` = raised), and `parse` abstracts `json.loads` plus the `.get`
projections (`none` = raised `JSONDecodeError`); `tools` is the
`tool_map` registry contents. -/
structure Env where
  model : Nat → Option String
  parse : String → Option Plan
  tools : List (String × ToolCap)

/-- Association-list lookup, modelling Python dict indexing and membership. -/
def lookupName {α : Type} (ts : List (String × α)) (name : String) : Option α :=
  match ts with
  | [] => none
  | (k, v) :: rest => if k = name then some v else lookupName rest name

/-- Registry lookup: `tool_name in self.tool_map` and `self.tool_map[tool_name]`. -/
def lookupTool (env : Env) (name : String) : Option ToolCap :=
  lookupName env.tools name

/-- Lines 166-167: `state["summary"] = plan.get("summary", state["summary"])`
and the same for `sources`. -/
def applyPlan (s : SessionState) (p : Plan) : SessionState :=
  { s with
    summary := p.summary?.getD s.summary
    sources := p.sources?.getD s.sources }

/-- Lines 178-184: the `for tool_name in new_tools` loop.  A name
missing from the registry, or already present in `tool_results`, is
skipped.  Otherwise the capability is invoked (recorded in the log);
a returned text is stored and the name appended to `tools_used`,
while a raised exception aborts the round (the remaining names are
not processed) and is swallowed by the `except` handler. -/
def runTools (env : Env) (i : Nat) (names : List String)
    (s : SessionState) (log : Log) : SessionState × Log :=
  match names with
  | [] => (s, log)
  | name :: rest =>
    match lookupTool env name with
    | none => runTools env i rest s log
    | some cap =>
      match lookupName s.tool_results name with
      | some _ => runTools env i rest s log
      | none =>
        match cap i with
        | Except.ok r =>
          runTools env i rest
            { s with
              tool_results := s.tool_results ++ [(name, r)]
              tools_used := s.tools_used ++ [name] }
            (log ++ [(i, name)])
        | Except.error _ => (s, log ++ [(i, name)])

/-- One round of the loop body (lines 159-189).  The Bool is the
`break` signal of lines 170-174. -/
def stepRound (env : Env) (i : Nat) (s : SessionState) (log : Log) :
    SessionState × Log × Bool :=
  match env.model i with
  | none => (s, log, false)
  | some raw =>
    match env.parse (extract_json raw) with
    | none => (s, log, false)
    | some plan =>
      let s1 := applyPlan s plan
      let newTools := plan.tools_used?.getD []
      if newTools = [] ∧ s1.summary ≠ "" then
        if 2 ≤ s1.tools_used.length then (s1, log, true)
        else (s1, log, false)
      else
        let r := runTools env i newTools s1 log
        (r.1, r.2, false)

/-- The loop `for iteration in range(1, max_iterations + 1)` (line 131), with
the `break` of line 174.  Returns the final state, the invocation log
and the number of rounds whose body was entered. -/
def runLoop (env : Env) (fuel : Nat) (i : Nat)
    (s : SessionState) (log : Log) : SessionState × Log × Nat :=
  match fuel with
  | 0 => (s, log, 0)
  | fuel' + 1 =>
    let r := stepRound env i s log
    if r.2.2 then (r.1, r.2.1, 1)
    else
      let r2 := runLoop env fuel' (i + 1) r.1 r.2.1
      (r2.1, r2.2.1, r2.2.2 + 1)

/-- Lines 115-121: the fresh session state of one `research` call. -/
def initState (query : String) : SessionState :=
  { tools_used := []
    tool_results := []
    topic := query
    summary := ""
    sources := [] }

/-- The loop of `ResearchAgent.research` from the fresh state. -/
def researchRun (env : Env) (query : String) (maxIterations : Nat) :
    SessionState × Log × Nat :=
  runLoop env maxIterations 1 (initState query) []

def researchFinal (env : Env) (query : String) (maxIterations : Nat) :
    SessionState :=
  (researchRun env query maxIterations).1

def researchLog (env : Env) (query : String) (maxIterations : Nat) : Log :=
  (researchRun env query maxIterations).2.1

def researchRounds (env : Env) (query : String) (maxIterations : Nat) : Nat :=
  (researchRun env query maxIterations).2.2

/-- The sentinel of line 194. -/
def sentinel : String := "Unable to complete research"

/-- Lines 192-197: finalisation into a `ResearchResponse`.  The Python idiom
`state["sources"] or []` maps an empty list to `[]`, i.e. is the
identity on lists. -/
def research (env : Env) (query : String) (maxIterations : Nat) :
    ResearchResponse :=
  let s := researchFinal env query maxIterations
  { topic := s.topic
    summary := if s.summary = "" then sentinel else s.summary
    sources := s.sources
    tools_used := s.tools_used }

/-! ## The registered tools of `_init_tools` (lines 50-84)

Each of the three tools wraps its backend call in `try/except` and
returns an error description on failure, so the capability itself
never raises.  The backend (network / filesystem) outcome is an
opaque parameter: `Except.ok` is its result text, `Except.error` its
exception text `str(e)`. -/

def search_tool (net : Nat → Except String String) : ToolCap := fun i =>
  match net i with
  | Except.ok r => Except.ok ("DuckDuckGo Search Results: " ++ r)
  | Except.error e => Except.ok ("Search error: " ++ e)

def wiki_tool (net : Nat → Except String String) : ToolCap := fun i =>
  match net i with
  | Except.ok r => Except.ok ("Wikipedia: " ++ r)
  | Except.error e => Except.ok ("Wikipedia error: " ++ e)

def save_tool (fs : Nat → Except String Unit) : ToolCap := fun i =>
  match fs i with
  | Except.ok _ => Except.ok "Data saved to research_output.txt"
  | Except.error e => Except.ok ("Save error: " ++ e)

/-- The registry `self.tool_map` (lines 80-84). -/
def tool_map (net wiki : Nat → Except String String)
    (fs : Nat → Except String Unit) : List (String × ToolCap) :=
  [("search_tool", search_tool net),
   ("wiki_tool", wiki_tool wiki),
   ("save_tool", save_tool fs)]

/-! ## Invariants and traces -/

/-- The state invariant claimed for every session: `tools_used` has no
duplicates, and the key set of `tool_results` is the set of names in
`tools_used`. -/
def SessionInv (s : SessionState) : Prop :=
  s.tools_used.Nodup ∧
    ∀ name : String,
      (∃ r, lookupName s.tool_results name = some r) ↔ name ∈ s.tools_used

/-- The invocation log names each tool at most once, and the logged
names are exactly the recorded ones. -/
def LogInv (s : SessionState) (log : Log) : Prop :=
  (log.map Prod.snd).Nodup ∧
    ∀ name : String, name ∈ log.map Prod.snd ↔ name ∈ s.tools_used

/-- A used tool whose capability returns the fixed text `t` on every
round has `t` recorded as its result. -/
def ResultsInv (env : Env) (s : SessionState) : Prop :=
  ∀ name cap t, lookupTool env name = some cap →
    (∀ i, cap i = Except.ok t) → name ∈ s.tools_used →
    lookupName s.tool_results name = some t

def LoopInv (env : Env) (s : SessionState) (log : Log) : Prop :=
  SessionInv s ∧ LogInv s log ∧ ResultsInv env s

/-- Every registered capability returns (rather than raises) on every
round.  The three tools of `_init_tools` satisfy this by construction:
each catches its own exceptions. -/
def EnvOk (env : Env) : Prop :=
  ∀ p ∈ env.tools, ∀ i : Nat, ∃ t, p.2 i = Except.ok t

/-- The (state, log) pairs after each executed round of the loop. -/
def loopTrace (env : Env) (fuel i : Nat) (s : SessionState) (log : Log) :
    List (SessionState × Log) :=
  match fuel with
  | 0 => []
  | fuel' + 1 =>
    let r := stepRound env i s log
    if r.2.2 then [(r.1, r.2.1)]
    else (r.1, r.2.1) :: loopTrace env fuel' (i + 1) r.1 r.2.1

/-- The per-round states and logs of one `research` call. -/
def researchTrace (env : Env) (query : String) (maxIterations : Nat) :
    List (SessionState × Log) :=
  loopTrace env maxIterations 1 (initState query) []

/-! ## Concrete environments used to evaluate the theorems -/

/-- Transport (or parse) failure in every round; empty registry. -/
def failEnv : Env :=
  { model := fun _ => none, parse := fun _ => none, tools := [] }

/-- The model immediately emits a plan with non-empty summary and an
empty tool request, never having used a tool (spec Scenario A). -/
def planXEnv : Env :=
  { model := fun _ => some ""
    parse := fun _ => some
      { topic? := none, summary? := some "X", sources? := some []
        tools_used? := some [] }
    tools := [] }

/-- A plan carrying every field, including a model-emitted topic. -/
def planSEnv : Env :=
  { model := fun _ => some ""
    parse := fun _ => some
      { topic? := some "model topic", summary? := some "S"
        sources? := some ["src1"], tools_used? := some [] }
    tools := [] }

def okNet : Nat → Except String String := fun _ => Except.ok "result"

def okFs : Nat → Except String Unit := fun _ => Except.ok ()

def errNet (e : String) : Nat → Except String String :=
  fun _ => Except.error e

/-- The model requests `search_tool` twice plus `wiki_tool` in every
round, over the registry of `_init_tools` with healthy backends. -/
def greedyEnv : Env :=
  { model := fun _ => some ""
    parse := fun _ => some
      { topic? := none, summary? := some "done", sources? := some []
        tools_used? := some ["search_tool", "search_tool", "wiki_tool"] }
    tools := tool_map okNet okNet okFs }

/-- The registry of `_init_tools` with a search backend that raises
`e` on every call; model and parse behaviour arbitrary. -/
def brokenEnv (model : Nat → Option String) (parse : String → Option Plan)
    (wiki : Nat → Except String String) (fs : Nat → Except String Unit)
    (e : String) : Env :=
  { model := model, parse := parse
    tools := tool_map (errNet e) wiki fs }

/-- The model asks only for `search_tool`, every round. -/
def searchOnlyParse : String → Option Plan := fun _ => some
  { topic? := none, summary? := some "done", sources? := some []
    tools_used? := some ["search_tool"] }

/-! ## Basic lemmas on the loop -/

theorem runTools_fields (env : Env) (i : Nat) (names : List String) :
    ∀ s log, (runTools env i names s log).1.topic = s.topic ∧
      (runTools env i names s log).1.summary = s.summary ∧
      (runTools env i names s log).1.sources = s.sources := by
  induction names with
  | nil => intro s log; exact ⟨rfl, rfl, rfl⟩
  | cons name rest ih =>
    intro s log
    simp only [runTools]
    cases lookupTool env name with
    | none => exact ih s log
    | some cap =>
      dsimp only
      cases lookupName s.tool_results name with
      | some r => exact ih s log
      | none =>
        dsimp only
        cases cap i with
        | ok r => exact ih _ _
        | error e => exact ⟨rfl, rfl, rfl⟩

theorem stepRound_topic (env : Env) (i : Nat) (s : SessionState) (log : Log) :
    (stepRound env i s log).1.topic = s.topic := by
  simp only [stepRound]
  cases env.model i with
  | none => rfl
  | some raw =>
    dsimp only
    cases env.parse (extract_json raw) with
    | none => rfl
    | some plan =>
      dsimp only
      split
      · split <;> simp [applyPlan]
      · dsimp only
        rw [(runTools_fields env i _ (applyPlan s plan) log).1]
        simp [applyPlan]

theorem runLoop_rounds_le (env : Env) (fuel : Nat) :
    ∀ i s log, (runLoop env fuel i s log).2.2 ≤ fuel := by
  induction fuel with
  | zero => intro i s log; simp [runLoop]
  | succ n ih =>
    intro i s log
    simp only [runLoop]
    split
    · dsimp only
      omega
    · dsimp only
      have h := ih (i + 1) (stepRound env i s log).1 (stepRound env i s log).2.1
      omega

theorem runLoop_topic (env : Env) (fuel : Nat) :
    ∀ i s log, (runLoop env fuel i s log).1.topic = s.topic := by
  induction fuel with
  | zero => intro i s log; rfl
  | succ n ih =>
    intro i s log
    simp only [runLoop]
    split
    · dsimp only
      exact stepRound_topic env i s log
    · dsimp only
      rw [ih (i + 1) (stepRound env i s log).1 (stepRound env i s log).2.1]
      exact stepRound_topic env i s log

theorem applyPlan_tools_used (s : SessionState) (p : Plan) :
    (applyPlan s p).tools_used = s.tools_used := rfl

theorem applyPlan_tool_results (s : SessionState) (p : Plan) :
    (applyPlan s p).tool_results = s.tool_results := rfl

/-! ## Association-list lemmas -/

theorem lookupName_mem {α : Type} (ts : List (String × α)) (name : String)
    (v : α) (h : lookupName ts name = some v) : (name, v) ∈ ts := by
  induction ts with
  | nil => simp [lookupName] at h
  | cons p rest ih =>
    cases p with
    | mk k w =>
      simp only [lookupName] at h
      by_cases hk : k = name
      · subst hk
        simp at h
        subst h
        exact List.mem_cons_self _ _
      · rw [if_neg hk] at h
        exact List.mem_cons_of_mem _ (ih h)

theorem lookupName_append_some {α : Type} (rs : List (String × α))
    (p : String × α) (name : String) (v : α)
    (h : lookupName rs name = some v) :
    lookupName (rs ++ [p]) name = some v := by
  induction rs with
  | nil => simp [lookupName] at h
  | cons q rest ih =>
    cases q with
    | mk k w =>
      simp only [lookupName] at h ⊢
      by_cases hk : k = name
      · simpa [hk] using h
      · rw [if_neg hk] at h ⊢
        exact ih h

theorem lookupName_append_self {α : Type} (rs : List (String × α))
    (name : String) (v : α) (h : lookupName rs name = none) :
    lookupName (rs ++ [(name, v)]) name = some v := by
  induction rs with
  | nil => simp [lookupName]
  | cons q rest ih =>
    cases q with
    | mk k w =>
      simp only [lookupName] at h ⊢
      by_cases hk : k = name
      · simp [hk] at h
      · rw [if_neg hk] at h ⊢
        exact ih h

theorem lookupName_append_ne {α : Type} (rs : List (String × α))
    (k name : String) (v : α) (hne : k ≠ name)
    (h : lookupName rs name = none) :
    lookupName (rs ++ [(k, v)]) name = none := by
  induction rs with
  | nil => simp [lookupName, hne]
  | cons q rest ih =>
    cases q with
    | mk k' w =>
      simp only [lookupName] at h ⊢
      by_cases hk : k' = name
      · simp [hk] at h
      · rw [if_neg hk] at h ⊢
        exact ih h

/-! ## Lemmas on the extraction regexes -/

theorem isWs_obr : isWs obr = false := by decide

theorem isWs_cbr : isWs cbr = false := by decide

theorem isWs_tick : isWs tick = false := by decide

theorem cbr_ne_tick : cbr ≠ tick := by decide

theorem obr_ne_tick : obr ≠ tick := by decide

theorem obr_ne_j : obr ≠ 'j' := by decide

theorem ws_ne_j (c : Char) (h : isWs c = true) : c ≠ 'j' := by
  intro hc
  rw [hc] at h
  exact absurd h (by decide)

theorem startsWithTicks_cons_ne (c : Char) (r : List Char) (h : c ≠ tick) :
    startsWithTicks (c :: r) = false := by
  cases r with
  | nil => rfl
  | cons b r2 =>
    cases r2 with
    | nil => rfl
    | cons d r3 => simp [startsWithTicks, h]

theorem startsWithTicks_ticks (post : List Char) :
    startsWithTicks (tick :: tick :: tick :: post) = true := by
  simp [startsWithTicks]

theorem dropWs_cons_neg (c : Char) (l : List Char) (h : isWs c = false) :
    dropWs (c :: l) = c :: l := by
  simp [dropWs, List.dropWhile, h]

theorem dropWs_append (ws l : List Char) (h : ∀ x ∈ ws, isWs x = true) :
    dropWs (ws ++ l) = dropWs l := by
  induction ws with
  | nil => rfl
  | cons x tl ih =>
    have hx : isWs x = true := h x (List.mem_cons_self _ _)
    simp only [List.cons_append, dropWs, List.dropWhile, hx]
    exact ih (fun y hy => h y (List.mem_cons_of_mem _ hy))

theorem ticks_dropWs_false (b rest : List Char) (hb : ∀ x ∈ b, x ≠ tick) :
    startsWithTicks (dropWs (b ++ cbr :: rest)) = false := by
  induction b with
  | nil =>
    rw [List.nil_append, dropWs_cons_neg cbr _ isWs_cbr]
    exact startsWithTicks_cons_ne cbr _ cbr_ne_tick
  | cons x b' ih =>
    by_cases hw : isWs x = true
    · simp only [List.cons_append, dropWs, List.dropWhile, hw]
      exact ih (fun y hy => hb y (List.mem_cons_of_mem _ hy))
    · rw [List.cons_append,
        dropWs_cons_neg x _ (Bool.eq_false_iff.2 hw)]
      exact startsWithTicks_cons_ne x _ (hb x (List.mem_cons_self _ _))

theorem findLazyClose_append (mid rest : List Char)
    (hmid : ∀ x ∈ mid, x ≠ tick)
    (hrest : startsWithTicks (dropWs rest) = true) :
    findLazyClose (mid ++ cbr :: rest) = some (mid, rest) := by
  induction mid with
  | nil =>
    simp only [List.nil_append, findLazyClose]
    simp [hrest]
  | cons x mid' ih =>
    have hnot : ¬(x = cbr ∧
        startsWithTicks (dropWs (mid' ++ cbr :: rest)) = true) := by
      rintro ⟨_, h2⟩
      rw [ticks_dropWs_false mid' rest
        (fun y hy => hmid y (List.mem_cons_of_mem _ hy))] at h2
      exact Bool.noConfusion h2
    simp only [List.cons_append, findLazyClose, List.append_eq]
    rw [if_neg hnot,
      ih (fun y hy => hmid y (List.mem_cons_of_mem _ hy))]

theorem tryAfterLabel_spec (ws1 cmid rest2 : List Char)
    (hws : ∀ x ∈ ws1, isWs x = true)
    (hmid : ∀ x ∈ cmid, x ≠ tick)
    (hrest : startsWithTicks (dropWs rest2) = true) :
    tryAfterLabel (ws1 ++ obr :: (cmid ++ cbr :: rest2)) =
      some (obr :: cmid ++ [cbr]) := by
  simp only [tryAfterLabel,
    dropWs_append ws1 _ hws, dropWs_cons_neg obr _ isWs_obr]
  simp only [if_pos rfl, eq_self_iff_true, if_true]
  rw [findLazyClose_append cmid rest2 hmid hrest]

theorem stripJson_json (r2 : List Char) : stripJson (jsonL ++ r2) = some r2 := by
  simp only [stripJson]
  rw [List.take_left' (by rfl), if_pos rfl, List.drop_left' (by rfl)]

theorem stripJson_cons_ne (c : Char) (l : List Char) (h : c ≠ 'j') :
    stripJson (c :: l) = none := by
  simp only [stripJson]
  rw [if_neg]
  intro hcon
  rw [List.take_succ_cons] at hcon
  simp [jsonL] at hcon
  exact h hcon.1

theorem tryFenceAt_fence (lbl ws1 cmid ws2 post : List Char)
    (hlbl : lbl = jsonL ∨ lbl = [])
    (hws1 : ∀ x ∈ ws1, isWs x = true)
    (hmid : ∀ x ∈ cmid, x ≠ tick)
    (hws2 : ∀ x ∈ ws2, isWs x = true) :
    tryFenceAt (tick :: tick :: tick ::
        (lbl ++ (ws1 ++ obr :: (cmid ++ cbr :: (ws2 ++ tick :: tick :: tick :: post))))) =
      some (obr :: cmid ++ [cbr]) := by
  have hrest : startsWithTicks
      (dropWs (ws2 ++ tick :: tick :: tick :: post)) = true := by
    rw [dropWs_append ws2 _ hws2, dropWs_cons_neg tick _ isWs_tick]
    exact startsWithTicks_ticks post
  have hafter : tryAfterLabel
      (ws1 ++ obr :: (cmid ++ cbr :: (ws2 ++ tick :: tick :: tick :: post))) =
      some (obr :: cmid ++ [cbr]) :=
    tryAfterLabel_spec ws1 cmid _ hws1 hmid hrest
  rcases hlbl with hlbl | hlbl
  · subst hlbl
    simp only [tryFenceAt, eq_self_iff_true, and_self, if_true]
    rw [stripJson_json]
    dsimp only
    rw [hafter]
  · subst hlbl
    simp only [tryFenceAt, List.nil_append, eq_self_iff_true, and_self, if_true]
    have hsj : stripJson
        (ws1 ++ obr :: (cmid ++ cbr :: (ws2 ++ tick :: tick :: tick :: post))) = none := by
      cases hw : ws1 with
      | nil =>
        rw [List.nil_append]
        exact stripJson_cons_ne obr _ obr_ne_j
      | cons w tl =>
        rw [List.cons_append]
        refine stripJson_cons_ne w _ (ws_ne_j w ?_)
        exact hws1 w (hw ▸ List.mem_cons_self _ _)
    rw [hsj]
    dsimp only
    exact hafter

theorem tryFenceAt_ne_tick (c : Char) (l : List Char) (h : c ≠ tick) :
    tryFenceAt (c :: l) = none := by
  cases l with
  | nil => rfl
  | cons b l2 =>
    cases l2 with
    | nil => rfl
    | cons d l3 =>
      simp only [tryFenceAt]
      rw [if_neg]
      intro hcon
      exact h hcon.1

theorem searchFence_append_noTick (xs l : List Char)
    (h : ∀ x ∈ xs, x ≠ tick) :
    searchFence (xs ++ l) = searchFence l := by
  induction xs with
  | nil => rfl
  | cons c tl ih =>
    simp only [List.cons_append, searchFence]
    rw [tryFenceAt_ne_tick c _ (h c (List.mem_cons_self _ _))]
    exact ih (fun y hy => h y (List.mem_cons_of_mem _ hy))

theorem searchFence_none_noTick (l : List Char) (h : ∀ x ∈ l, x ≠ tick) :
    searchFence l = none := by
  induction l with
  | nil => rfl
  | cons c tl ih =>
    simp only [searchFence]
    rw [tryFenceAt_ne_tick c _ (h c (List.mem_cons_self _ _))]
    exact ih (fun y hy => h y (List.mem_cons_of_mem _ hy))

theorem tryAfterLabel_none (l : List Char) (h : ∀ x ∈ l, x ≠ obr) :
    tryAfterLabel l = none := by
  cases hd : dropWs l with
  | nil => simp [tryAfterLabel, hd]
  | cons c body =>
    have hc : c ∈ l := by
      have hsub : List.Sublist (dropWs l) l := List.dropWhile_sublist _
      exact hsub.subset (hd ▸ List.mem_cons_self c body)
    simp [tryAfterLabel, hd, h c hc]

theorem tryFenceAt_none_noObr (l : List Char) (h : ∀ x ∈ l, x ≠ obr) :
    tryFenceAt l = none := by
  cases l with
  | nil => rfl
  | cons a t =>
    cases t with
    | nil => rfl
    | cons b t2 =>
      cases t2 with
      | nil => rfl
      | cons c rest =>
        have hrest : ∀ x ∈ rest, x ≠ obr := by
          intro x hx
          exact h x (by simp [hx])
        simp only [tryFenceAt]
        by_cases ht : a = tick ∧ b = tick ∧ c = tick
        · rw [if_pos ht]
          cases hsj : stripJson rest with
          | none =>
            dsimp only
            exact tryAfterLabel_none rest hrest
          | some r2 =>
            dsimp only
            have hr2 : r2 = rest.drop 4 := by
              unfold stripJson at hsj
              split at hsj
              · exact (Option.some.injEq _ _ ▸ hsj).symm
              · exact Option.noConfusion hsj
            rw [tryAfterLabel_none r2
              (fun x hx => hrest x (List.drop_subset _ _ (hr2 ▸ hx)))]
            exact tryAfterLabel_none rest hrest
        · rw [if_neg ht]

theorem searchFence_none_noObr (l : List Char) (h : ∀ x ∈ l, x ≠ obr) :
    searchFence l = none := by
  induction l with
  | nil => rfl
  | cons c tl ih =>
    simp only [searchFence]
    rw [tryFenceAt_none_noObr _ h]
    exact ih (fun y hy => h y (List.mem_cons_of_mem _ hy))

theorem dropWhile_ne_append (p : Char) (u X : List Char)
    (hu : ∀ x ∈ u, x ≠ p) :
    List.dropWhile (fun c => !(c == p)) (u ++ p :: X) = p :: X := by
  induction u with
  | nil => simp [List.dropWhile]
  | cons x tl ih =>
    have hx : x ≠ p := hu x (List.mem_cons_self _ _)
    have hb : (!(x == p)) = true := by simp [hx]
    simp only [List.cons_append, List.dropWhile, hb]
    exact ih (fun y hy => hu y (List.mem_cons_of_mem _ hy))

theorem dropWhile_ne_all (p : Char) (l : List Char)
    (h : ∀ x ∈ l, x ≠ p) :
    List.dropWhile (fun c => !(c == p)) l = [] := by
  induction l with
  | nil => rfl
  | cons x tl ih =>
    have hx : x ≠ p := h x (List.mem_cons_self _ _)
    have hb : (!(x == p)) = true := by simp [hx]
    simp only [List.dropWhile, hb]
    exact ih (fun y hy => h y (List.mem_cons_of_mem _ hy))

theorem braceSpan_split (u m v : List Char)
    (hu : ∀ x ∈ u, x ≠ obr) (hv : ∀ x ∈ v, x ≠ cbr) :
    braceSpan (u ++ obr :: (m ++ cbr :: v)) = some (obr :: m ++ [cbr]) := by
  simp only [braceSpan, dropWhile_ne_append obr u _ hu]
  have hrev : (obr :: (m ++ cbr :: v)).reverse =
      v.reverse ++ cbr :: (m.reverse ++ [obr]) := by
    simp
  rw [hrev, dropWhile_ne_append cbr v.reverse _
    (fun x hx => hv x (List.mem_reverse.1 hx))]
  simp

theorem braceSpan_none (l : List Char) (h : ∀ x ∈ l, x ≠ obr) :
    braceSpan l = none := by
  simp [braceSpan, dropWhile_ne_all obr l h]

theorem data_ticks : ("```" : String).data = [tick, tick, tick] := by decide

theorem data_json : ("json" : String).data = jsonL := by decide

theorem data_mk (l : List Char) : (String.mk l).data = l := rfl

theorem mk_data (s : String) : String.mk s.data = s := rfl

theorem searchFence_cons (c : Char) (t : List Char) :
    searchFence (c :: t) =
      match tryFenceAt (c :: t) with
      | some cap => some cap
      | none => searchFence t := rfl

theorem extract_json_fence (pre lbl ws1 ws2 post : String) (cmid : List Char)
    (hpre : ∀ x ∈ pre.data, x ≠ tick)
    (hlbl : lbl = "json" ∨ lbl = "")
    (hws1 : ∀ x ∈ ws1.data, isWs x = true)
    (hmid : ∀ x ∈ cmid, x ≠ tick)
    (hws2 : ∀ x ∈ ws2.data, isWs x = true) :
    extract_json (pre ++ "```" ++ lbl ++ ws1 ++
        String.mk (obr :: cmid ++ [cbr]) ++ ws2 ++ "```" ++ post) =
      String.mk (obr :: cmid ++ [cbr]) := by
  have hlbl' : lbl.data = jsonL ∨ lbl.data = [] := by
    rcases hlbl with h | h <;> rw [h]
    · exact Or.inl data_json
    · exact Or.inr rfl
  have hdata : (pre ++ "```" ++ lbl ++ ws1 ++
      String.mk (obr :: cmid ++ [cbr]) ++ ws2 ++ "```" ++ post).data =
      pre.data ++ tick :: tick :: tick ::
        (lbl.data ++ (ws1.data ++ obr ::
          (cmid ++ cbr :: (ws2.data ++ tick :: tick :: tick :: post.data)))) := by
    rw [String.data_append, String.data_append, String.data_append,
      String.data_append, String.data_append, String.data_append,
      String.data_append, data_ticks, data_mk]
    simp only [List.append_assoc, List.cons_append, List.nil_append]
  unfold extract_json
  rw [hdata]
  refine congrArg String.mk ?_
  simp only [extractJsonChars]
  rw [searchFence_append_noTick pre.data _ hpre, searchFence_cons,
    tryFenceAt_fence lbl.data ws1.data cmid ws2.data post.data
      hlbl' hws1 hmid hws2]

theorem extract_json_braces (s : String) (u m v : List Char)
    (hs : ∀ x ∈ s.data, x ≠ tick)
    (hdata : s.data = u ++ obr :: (m ++ cbr :: v))
    (hu : ∀ x ∈ u, x ≠ obr) (hv : ∀ x ∈ v, x ≠ cbr) :
    extract_json s = String.mk (obr :: m ++ [cbr]) := by
  unfold extract_json
  refine congrArg String.mk ?_
  simp only [extractJsonChars]
  rw [searchFence_none_noTick s.data hs, hdata,
    braceSpan_split u m v hu hv]

theorem extract_json_id (s : String)
    (h : ∀ x ∈ s.data, x ≠ obr ∧ x ≠ cbr) :
    extract_json s = s := by
  have h1 := searchFence_none_noObr s.data (fun x hx => (h x hx).1)
  have h2 := braceSpan_none s.data (fun x hx => (h x hx).1)
  unfold extract_json
  rw [show extractJsonChars s.data = s.data by
    simp [extractJsonChars, h1, h2]]

/-! ## Preservation of the loop invariant -/

theorem LoopInv_init (env : Env) (query : String) :
    LoopInv env (initState query) [] := by
  refine ⟨⟨List.nodup_nil, ?_⟩, ⟨List.nodup_nil, ?_⟩, ?_⟩
  · intro name
    simp [lookupName, initState]
  · intro name
    simp [initState]
  · intro name cap t _ _ hmem
    simp [initState] at hmem

theorem LoopInv_applyPlan (env : Env) (s : SessionState) (log : Log)
    (p : Plan) (h : LoopInv env s log) : LoopInv env (applyPlan s p) log := h

theorem LoopInv_record (env : Env) (s : SessionState) (log : Log)
    (i : Nat) (name : String) (cap : ToolCap) (r : String)
    (h : LoopInv env s log)
    (hl : lookupTool env name = some cap)
    (hc : cap i = Except.ok r)
    (hnew : lookupName s.tool_results name = none) :
    LoopInv env
      { s with tool_results := s.tool_results ++ [(name, r)]
               tools_used := s.tools_used ++ [name] }
      (log ++ [(i, name)]) := by
  obtain ⟨⟨hnd, hkeys⟩, ⟨hlognd, hlog⟩, hres⟩ := h
  have hnotused : name ∉ s.tools_used := by
    intro hmem
    rcases (hkeys name).2 hmem with ⟨r', hr'⟩
    rw [hnew] at hr'
    exact Option.noConfusion hr'
  refine ⟨⟨?_, ?_⟩, ⟨?_, ?_⟩, ?_⟩
  · simpa using List.Nodup.append hnd (List.nodup_singleton name)
      (List.disjoint_singleton.mpr hnotused)
  · intro n
    by_cases hn : n = name
    · subst hn
      constructor
      · intro _
        simp
      · intro _
        exact ⟨r, lookupName_append_self _ _ _ hnew⟩
    · constructor
      · rintro ⟨r', hr'⟩
        cases ho : lookupName s.tool_results n with
        | some w =>
          have := (hkeys n).1 ⟨w, ho⟩
          simp [this]
        | none =>
          rw [lookupName_append_ne _ _ _ _ (fun hh => hn hh.symm) ho] at hr'
          exact Option.noConfusion hr'
      · intro hmem
        rcases List.mem_append.1 hmem with hmem | hmem
        · rcases (hkeys n).2 hmem with ⟨w, hw⟩
          exact ⟨w, lookupName_append_some _ _ _ _ hw⟩
        · simp at hmem
          exact absurd hmem hn
  · have hnotlog : name ∉ log.map Prod.snd := fun hh => hnotused ((hlog name).1 hh)
    simpa using List.Nodup.append hlognd (List.nodup_singleton name)
      (List.disjoint_singleton.mpr hnotlog)
  · intro n
    simp only [List.map_append, List.map_cons, List.map_nil, List.mem_append,
      List.mem_cons, List.not_mem_nil, or_false]
    constructor
    · rintro (hh | hh)
      · exact Or.inl ((hlog n).1 hh)
      · exact Or.inr hh
    · rintro (hh | hh)
      · exact Or.inl ((hlog n).2 hh)
      · exact Or.inr hh
  · intro n cap' t hl' hconst hmem
    by_cases hn : n = name
    · subst hn
      rw [hl'] at hl
      have hcap : cap' = cap := by
        injection hl
      have : Except.ok (ε := String) t = Except.ok r := by
        rw [← hconst i, hcap, hc]
      injection this with hh
      rw [hh] at *
      exact lookupName_append_self _ _ _ hnew
    · rcases List.mem_append.1 hmem with hmem | hmem
      · exact lookupName_append_some _ _ _ _ (hres n cap' t hl' hconst hmem)
      · simp at hmem
        exact absurd hmem hn

theorem runTools_inv (env : Env) (hok : EnvOk env) (i : Nat)
    (names : List String) :
    ∀ s log, LoopInv env s log →
      LoopInv env (runTools env i names s log).1
        (runTools env i names s log).2 := by
  induction names with
  | nil => intro s log h; exact h
  | cons name rest ih =>
    intro s log h
    simp only [runTools]
    cases hl : lookupTool env name with
    | none => exact ih s log h
    | some cap =>
      dsimp only
      cases hr : lookupName s.tool_results name with
      | some r => exact ih s log h
      | none =>
        dsimp only
        obtain ⟨t, ht⟩ := hok _ (lookupName_mem _ _ _ hl) i
        cases hc : cap i with
        | ok r =>
          dsimp only
          exact ih _ _ (LoopInv_record env s log i name cap r h hl hc hr)
        | error e =>
          have ht' : cap i = Except.ok t := ht
          rw [ht'] at hc
          exact Except.noConfusion hc

theorem stepRound_inv (env : Env) (hok : EnvOk env) (i : Nat)
    (s : SessionState) (log : Log) (h : LoopInv env s log) :
    LoopInv env (stepRound env i s log).1 (stepRound env i s log).2.1 := by
  simp only [stepRound]
  cases env.model i with
  | none => exact h
  | some raw =>
    dsimp only
    cases env.parse (extract_json raw) with
    | none => exact h
    | some plan =>
      dsimp only
      split
      · split
        · exact LoopInv_applyPlan env s log plan h
        · exact LoopInv_applyPlan env s log plan h
      · exact runTools_inv env hok i _ (applyPlan s plan) log
          (LoopInv_applyPlan env s log plan h)

theorem loopTrace_inv (env : Env) (hok : EnvOk env) (fuel : Nat) :
    ∀ i s log, LoopInv env s log →
      ∀ p ∈ loopTrace env fuel i s log, LoopInv env p.1 p.2 := by
  induction fuel with
  | zero =>
    intro i s log _ p hp
    simp [loopTrace] at hp
  | succ n ih =>
    intro i s log h p hp
    simp only [loopTrace] at hp
    by_cases hb : (stepRound env i s log).2.2 <;> simp [hb] at hp
    · rw [hp]
      exact ⟨(stepRound_inv env hok i s log h).1, (stepRound_inv env hok i s log h).2⟩
    · rcases hp with hp | hp
      · rw [hp]
        exact ⟨(stepRound_inv env hok i s log h).1, (stepRound_inv env hok i s log h).2⟩
      · exact ih (i + 1) _ _ (stepRound_inv env hok i s log h) p hp

theorem runLoop_inv (env : Env) (hok : EnvOk env) (fuel : Nat) :
    ∀ i s log, LoopInv env s log →
      LoopInv env (runLoop env fuel i s log).1
        (runLoop env fuel i s log).2.1 := by
  induction fuel with
  | zero => intro i s log h; exact h
  | succ n ih =>
    intro i s log h
    simp only [runLoop]
    split
    · dsimp only
      exact stepRound_inv env hok i s log h
    · dsimp only
      exact ih (i + 1) _ _ (stepRound_inv env hok i s log h)

/-! ## Claim theorems -/

/-- C1: for every query, every `max_iterations` and every model, parse
and tool behaviour, the loop of `ResearchAgent.research` executes at
most `max_iterations` rounds and then returns; the cap is enforced
independently of convergence. -/
theorem research_iteration_cap (env : Env) (query : String)
    (maxIterations : Nat) :
    researchRounds env query maxIterations ≤ maxIterations :=
  runLoop_rounds_le env maxIterations 1 (initState query) []

/-- C10: the `topic` of the returned `ResearchResult` is exactly the
input query, for every environment — in particular for environments
whose parsed plans carry a model-emitted `topic` value, which the loop
never reads. -/
theorem research_topic_is_query (env : Env) (query : String)
    (maxIterations : Nat) :
    (research env query maxIterations).topic = query := by
  show (researchFinal env query maxIterations).topic = query
  exact runLoop_topic env maxIterations 1 (initState query) []

/-- C4: for every behaviour of the collaborators — including per-round
model failure, parse failure and tool failure — `research` returns a
structurally complete `ResearchResponse`; its summary is never the
empty string, and when the loop exits with an empty session summary
the fixed sentinel is substituted, otherwise the session summary is
returned as is. -/
theorem research_always_returns (env : Env) (query : String)
    (maxIterations : Nat) :
    (research env query maxIterations).summary ≠ "" ∧
      ((researchFinal env query maxIterations).summary = "" →
        (research env query maxIterations).summary = sentinel) ∧
      ((researchFinal env query maxIterations).summary ≠ "" →
        (research env query maxIterations).summary =
          (researchFinal env query maxIterations).summary) := by
  refine ⟨?_, ?_, ?_⟩
  · show (if (researchFinal env query maxIterations).summary = ""
      then sentinel else (researchFinal env query maxIterations).summary) ≠ ""
    split
    · decide
    · assumption
  · intro h
    show (if (researchFinal env query maxIterations).summary = ""
      then sentinel else (researchFinal env query maxIterations).summary) = sentinel
    simp [h]
  · intro h
    show (if (researchFinal env query maxIterations).summary = ""
      then sentinel else (researchFinal env query maxIterations).summary) =
        (researchFinal env query maxIterations).summary
    simp [h]

/-- Witness for C4: with a transport that fails every round, the call
still returns, the loop exits with an empty session summary, and the
result carries the sentinel text. -/
theorem research_always_returns_witness :
    (researchFinal failEnv "q" 5).summary = "" ∧
      (research failEnv "q" 5).summary = sentinel :=
  ⟨rfl, (research_always_returns failEnv "q" 5).2.1 rfl⟩

/-- C8: a round in which the model call fails, or in which the
extraction/parse of its output fails, changes nothing: the session
state and the invocation log are exactly as before the round, and no
stop is signalled. -/
theorem failed_round_no_mutation (env : Env) (i : Nat) (s : SessionState)
    (log : Log)
    (h : env.model i = none ∨
      ∃ raw, env.model i = some raw ∧ env.parse (extract_json raw) = none) :
    stepRound env i s log = (s, log, false) := by
  rcases h with h | ⟨raw, hm, hp⟩
  · simp [stepRound, h]
  · simp [stepRound, hm, hp]

/-- Witness for C8: the always-failing transport leaves the fresh
state untouched in round 1. -/
theorem failed_round_no_mutation_witness :
    stepRound failEnv 1 (initState "q") [] = (initState "q", [], false) :=
  failed_round_no_mutation failEnv 1 (initState "q") [] (Or.inl rfl)

/-- C6: in every round whose model output parses, the session summary
and sources are unconditionally overwritten with the parsed
values — whatever they were before, and whatever else the round then
does. -/
theorem parsed_plan_overwrites (env : Env) (i : Nat) (s : SessionState)
    (log : Log) (raw : String) (plan : Plan) (a : String) (b : List String)
    (hm : env.model i = some raw)
    (hp : env.parse (extract_json raw) = some plan)
    (ha : plan.summary? = some a) (hb : plan.sources? = some b) :
    (stepRound env i s log).1.summary = a ∧
      (stepRound env i s log).1.sources = b := by
  have happ : (applyPlan s plan).summary = a ∧ (applyPlan s plan).sources = b := by
    simp [applyPlan, ha, hb]
  simp only [stepRound, hm, hp]
  split
  · split
    · exact happ
    · exact happ
  · refine ⟨?_, ?_⟩
    · rw [(runTools_fields env i _ (applyPlan s plan) log).2.1]
      exact happ.1
    · rw [(runTools_fields env i _ (applyPlan s plan) log).2.2]
      exact happ.2

/-- Witness for C6: round 1 of `planSEnv` overwrites the empty initial
summary and sources with the values of the plan. -/
theorem parsed_plan_overwrites_witness :
    (stepRound planSEnv 1 (initState "q") []).1.summary = "S" ∧
      (stepRound planSEnv 1 (initState "q") []).1.sources = ["src1"] :=
  parsed_plan_overwrites planSEnv 1 (initState "q") [] ""
    { topic? := some "model topic", summary? := some "S"
      sources? := some ["src1"], tools_used? := some [] }
    "S" ["src1"] rfl rfl rfl rfl

/-- C2: over any registry of capabilities that return rather than
raise (as all three tools of `_init_tools` do), after every round of
every session `tools_used` has no duplicate names, the key set of
`tool_results` equals the set of names in `tools_used`, and each
registered tool is invoked at most once in the whole session no
matter how many rounds request it. -/
theorem session_tools_invariant (env : Env) (query : String)
    (maxIterations : Nat) (hok : EnvOk env) :
    (∀ p ∈ researchTrace env query maxIterations,
      p.1.tools_used.Nodup ∧
        (∀ name, (∃ r, lookupName p.1.tool_results name = some r) ↔
          name ∈ p.1.tools_used) ∧
        (p.2.map Prod.snd).Nodup) ∧
      ((researchLog env query maxIterations).map Prod.snd).Nodup := by
  constructor
  · intro p hp
    have h := loopTrace_inv env hok maxIterations 1 (initState query) []
      (LoopInv_init env query) p hp
    exact ⟨h.1.1, h.1.2, h.2.1.1⟩
  · exact (runLoop_inv env hok maxIterations 1 (initState query) []
      (LoopInv_init env query)).2.1.1

/-- Witness for C2: the environment whose model requests
`search_tool` twice plus `wiki_tool` in every round, over the
`_init_tools` registry with healthy backends. -/
theorem session_tools_invariant_witness :
    EnvOk greedyEnv ∧
      ((researchLog greedyEnv "q" 5).map Prod.snd).Nodup := by
  have hok : EnvOk greedyEnv := by
    intro p hp i
    simp [greedyEnv, tool_map] at hp
    rcases hp with hp | hp | hp <;> rw [hp] <;>
      exact ⟨_, rfl⟩
  exact ⟨hok, (session_tools_invariant greedyEnv "q" 5 hok).2⟩

/-- C5: with the search backend raising `e` on every call, the
registered `search_tool` catches the failure and returns its
description; whenever the session has used it, the description is its
recorded `tool_results` entry and it occurs exactly once in
`tools_used`; and across the whole session it is invoked at most
once — the loop never retries it. -/
theorem broken_tool_recorded_once (model : Nat → Option String)
    (parse : String → Option Plan) (wiki : Nat → Except String String)
    (fs : Nat → Except String Unit) (e query : String)
    (maxIterations : Nat) :
    ((researchLog (brokenEnv model parse wiki fs e) query
        maxIterations).map Prod.snd).count "search_tool" ≤ 1 ∧
      ("search_tool" ∈ (researchFinal (brokenEnv model parse wiki fs e)
          query maxIterations).tools_used →
        ((researchFinal (brokenEnv model parse wiki fs e) query
            maxIterations).tools_used.count "search_tool" = 1 ∧
          lookupName (researchFinal (brokenEnv model parse wiki fs e)
            query maxIterations).tool_results "search_tool" =
            some ("Search error: " ++ e))) := by
  have hok : EnvOk (brokenEnv model parse wiki fs e) := by
    intro p hp i
    simp [brokenEnv, tool_map] at hp
    rcases hp with hp | hp | hp
    · rw [hp]
      exact ⟨_, rfl⟩
    · rw [hp]
      cases hw : wiki i with
      | ok r => exact ⟨"Wikipedia: " ++ r, by simp [wiki_tool, hw]⟩
      | error e' => exact ⟨"Wikipedia error: " ++ e', by simp [wiki_tool, hw]⟩
    · rw [hp]
      cases hf : fs i with
      | ok u => exact ⟨"Data saved to research_output.txt", by simp [save_tool, hf]⟩
      | error e' => exact ⟨"Save error: " ++ e', by simp [save_tool, hf]⟩
  have hinv := runLoop_inv (brokenEnv model parse wiki fs e) hok
    maxIterations 1 (initState query) [] (LoopInv_init _ query)
  refine ⟨?_, ?_⟩
  · exact (List.nodup_iff_count_le_one.1 hinv.2.1.1) "search_tool"
  · intro hmem
    refine ⟨List.count_eq_one_of_mem hinv.1.1 hmem, ?_⟩
    refine hinv.2.2 "search_tool" (search_tool (errNet e))
      ("Search error: " ++ e) ?_ (fun _ => rfl) hmem
    simp [lookupTool, brokenEnv, tool_map, lookupName]

/-- Witness for C5: a model that requests `search_tool` every round
over the broken-search registry; the session records it once with the
failure description. -/
theorem broken_tool_recorded_once_witness :
    "search_tool" ∈ (researchFinal
        (brokenEnv (fun _ => some "") searchOnlyParse okNet okFs "boom")
        "q" 2).tools_used ∧
      ((researchFinal
          (brokenEnv (fun _ => some "") searchOnlyParse okNet okFs "boom")
          "q" 2).tools_used.count "search_tool" = 1 ∧
        lookupName (researchFinal
          (brokenEnv (fun _ => some "") searchOnlyParse okNet okFs "boom")
          "q" 2).tool_results "search_tool" =
          some ("Search error: " ++ "boom")) := by
  have hmem : "search_tool" ∈ (researchFinal
      (brokenEnv (fun _ => some "") searchOnlyParse okNet okFs "boom")
      "q" 2).tools_used := by decide
  exact ⟨hmem, (broken_tool_recorded_once (fun _ => some "")
    searchOnlyParse okNet okFs "boom" "q" 2).2 hmem⟩

/-- C3: the loop signals `break` in a round exactly when the round's
parsed plan requests no tools, the session summary after applying the
plan is non-empty, and at least two tools have been used; and with
the model that immediately emits a non-empty summary with an empty
tool request, round 1 (with zero tools used) does not stop: the loop
runs to its full 5-round budget. -/
theorem convergence_stop_characterisation :
    (∀ (env : Env) (i : Nat) (s : SessionState) (log : Log),
      (stepRound env i s log).2.2 = true ↔
        ∃ raw plan, env.model i = some raw ∧
          env.parse (extract_json raw) = some plan ∧
          plan.tools_used?.getD [] = [] ∧
          (applyPlan s plan).summary ≠ "" ∧
          2 ≤ s.tools_used.length) ∧
    researchRounds planXEnv "q" 5 = 5 := by
  constructor
  · intro env i s log
    constructor
    · intro hstop
      simp only [stepRound] at hstop
      cases hm : env.model i with
      | none =>
        rw [hm] at hstop
        simp at hstop
      | some raw =>
        rw [hm] at hstop
        dsimp only at hstop
        cases hp : env.parse (extract_json raw) with
        | none =>
          rw [hp] at hstop
          simp at hstop
        | some plan =>
          rw [hp] at hstop
          dsimp only at hstop
          by_cases hcond : plan.tools_used?.getD [] = [] ∧
              (applyPlan s plan).summary ≠ ""
          · rw [if_pos hcond] at hstop
            by_cases hlen : 2 ≤ (applyPlan s plan).tools_used.length
            · exact ⟨raw, plan, rfl, hp, hcond.1, hcond.2, by
                simpa [applyPlan_tools_used] using hlen⟩
            · rw [if_neg hlen] at hstop
              simp at hstop
          · rw [if_neg hcond] at hstop
            simp at hstop
    · rintro ⟨raw, plan, hm, hp, h1, h2, h3⟩
      simp only [stepRound, hm, hp]
      rw [if_pos ⟨h1, h2⟩, if_pos (by simpa [applyPlan_tools_used] using h3)]
  · rfl

/-- C7: the extractor follows the ordered first-match-wins fallback:
a fenced code block (optionally labeled `json`) around a
brace-delimited payload yields exactly that payload; with no fenced
block, the greedy brace-delimited span — first opening brace to last
closing brace — is returned verbatim; with no braces at all the input
is returned unchanged. -/
theorem extract_json_fallback :
    (∀ (pre lbl ws1 ws2 post : String) (cmid : List Char),
      (∀ x ∈ pre.data, x ≠ tick) → (lbl = "json" ∨ lbl = "") →
      (∀ x ∈ ws1.data, isWs x = true) → (∀ x ∈ cmid, x ≠ tick) →
      (∀ x ∈ ws2.data, isWs x = true) →
      extract_json (pre ++ "```" ++ lbl ++ ws1 ++
          String.mk (obr :: cmid ++ [cbr]) ++ ws2 ++ "```" ++ post) =
        String.mk (obr :: cmid ++ [cbr])) ∧
    (∀ (s : String) (u m v : List Char),
      (∀ x ∈ s.data, x ≠ tick) →
      s.data = u ++ obr :: (m ++ cbr :: v) →
      (∀ x ∈ u, x ≠ obr) → (∀ x ∈ v, x ≠ cbr) →
      extract_json s = String.mk (obr :: m ++ [cbr])) ∧
    (∀ s : String, (∀ x ∈ s.data, x ≠ obr ∧ x ≠ cbr) →
      extract_json s = s) :=
  ⟨extract_json_fence, extract_json_braces, extract_json_id⟩

/-- Witness for C7: a labeled fenced block around the payload, a
fence-free text with a brace span, and a brace-free text. -/
theorem extract_json_fallback_witness :
    extract_json ("A " ++ "```" ++ "json" ++ "\n" ++
        String.mk (obr :: ['1'] ++ [cbr]) ++ "\n" ++ "```" ++ " B") =
      String.mk (obr :: ['1'] ++ [cbr]) ∧
      extract_json (String.mk ['x', obr, 'y', cbr, 'z']) =
        String.mk (obr :: ['y'] ++ [cbr]) ∧
      extract_json "no braces" = "no braces" :=
  ⟨extract_json_fallback.1 "A " "json" "\n" "\n" " B" ['1']
      (by decide) (Or.inl rfl) (by decide) (by decide) (by decide),
    extract_json_fallback.2.1 (String.mk ['x', obr, 'y', cbr, 'z'])
      ['x'] ['y'] ['z'] (by decide) (by decide) (by decide) (by decide),
    extract_json_fallback.2.2 "no braces" (by decide)⟩

/-- C9: a requested tool name absent from the registry is silently
dropped: the round's tool pass behaves exactly as if the name were not
in the request — nothing is added to `tool_results` or `tools_used`,
nothing is logged, no error is raised. -/
theorem unknown_tool_dropped (env : Env) (i : Nat) (name : String)
    (pre post : List String) (s : SessionState) (log : Log)
    (h : lookupTool env name = none) :
    runTools env i (pre ++ name :: post) s log =
      runTools env i (pre ++ post) s log := by
  induction pre generalizing s log with
  | nil => simp [runTools, h]
  | cons p pre' ih =>
    simp only [List.cons_append, runTools]
    cases lookupTool env p with
    | none => exact ih s log
    | some cap =>
      dsimp only
      cases lookupName s.tool_results p with
      | some r => exact ih s log
      | none =>
        dsimp only
        cases cap i with
        | ok r => exact ih _ _
        | error e => rfl

/-- Witness for C9: requesting the unregistered name `bogus` over the
empty registry is a no-op. -/
theorem unknown_tool_dropped_witness :
    lookupTool failEnv "bogus" = none ∧
      runTools failEnv 1 ["bogus"] (initState "q") [] =
        runTools failEnv 1 [] (initState "q") [] :=
  ⟨rfl, unknown_tool_dropped failEnv 1 "bogus" [] [] (initState "q") [] rfl⟩

end ResearchAgent
